import Mathlib

/-
Verification development for the vite-plugin-preload-images plugin
(src/index.ts).  The plugin resolves declared glob patterns to concrete
image URLs (differently in dev-server mode and in production builds),
deduplicates them, and emits a client-side preload scheduler script.

The embedding below mirrors the TypeScript source:
  * `validateOptions` / `VitePluginPreloadImages` — configuration checks
    and plugin construction (construction takes no filesystem capability,
    so validation provably happens before any pattern expansion).
  * `getCachedGlobSync` — the module-level glob cache, modelled as an
    explicitly threaded association list keyed by pattern + options,
    with the filesystem (`fast-glob`) as an environment function.
  * `matchBundleWithFiles` / `collectMatchedFiles` — production bundle
    matching (exact `originalFileName` membership, or the substring
    fallback `file.includes(bundle.name)`).
  * `generateBundle` / `transformImages` — the `generateBundle` and
    `transformIndexHtml` hooks (the image-list computation of the
    latter; the runtime behavior of the serialized script is modelled
    separately as a transition system, `SchedStep`).
JavaScript truthiness of the values the code actually branches on is
modelled explicitly (`JsVal.truthy`, empty string falsy, `Option` for
absent fields).
-/

/-- A JavaScript primitive value, used where the source code branches on
truthiness or on `typeof` of a user-supplied field. -/
inductive JsVal
  | jbool (b : Bool)
  | jstr (s : String)
  | jnum (n : Int)
deriving DecidableEq

/-- JavaScript truthiness for `JsVal`. -/
def JsVal.truthy : JsVal → Bool
  | .jbool b => b
  | .jstr s => s ≠ ""
  | .jnum n => n ≠ 0

/-- One entry of the `dirs` array: a bare pattern string, an object with
both `dir` and `publicDir` keys (the `DirOptions` shape; `publicDir` kept
as a raw `JsVal` because the source never checks its type), or an object
missing one of the two keys (rejected by the `IsDirOptions` type guard). -/
inductive DirsItem
  | str (s : String)
  | record (dir : String) (pd : JsVal)
  | malformed
deriving DecidableEq

/-- The `dirs` option value: a string, an array of items, or some other
truthy value of the wrong shape. -/
inductive DirsVal
  | str (s : String)
  | arr (items : List DirsItem)
  | other
deriving DecidableEq

/-- The raw options object handed to the plugin factory.  `none` models an
absent key (the source tests presence with `in`). -/
structure JsOptions where
  dirs : Option DirsVal
  batchSize : Option JsVal
  timeout : Option JsVal
deriving DecidableEq

/-- The `IsDirOptions` type guard: an object with both `dir` and
`publicDir` keys. -/
def IsDirOptions : DirsItem → Bool
  | .record _ _ => true
  | _ => false

/-- JavaScript `String.prototype.trim`, modelled by dropping whitespace
characters from both ends of the character list. -/
def jsTrim (s : String) : String :=
  ⟨((s.data.dropWhile Char.isWhitespace).reverse.dropWhile Char.isWhitespace).reverse⟩

/-- Error message produced for one `dirs` array entry, mirroring the
`forEach` body of `validateOptions` (empty-after-trim strings and objects
failing the `IsDirOptions` guard). -/
def itemError : Nat × DirsItem → Option String
  | (i, .str s) =>
      if jsTrim s = "" then some ("Param dirs[" ++ toString i ++ "] cannot be empty string!")
      else none
  | (_, .record _ _) => none
  | (i, .malformed) =>
      some ("Param dirs[" ++ toString i ++ "] must be have dir and publicDir property!")

/-- The `validateOptions` function: returns the list of collected error
messages (the source throws one `Error` joining exactly this list when it
is non-empty).  Note the first branch is the JavaScript falsy test
`!options.dirs`, so a present-but-empty string also yields the
"required" message, while a whitespace-only string passes. -/
def validateOptions (o : JsOptions) : List String :=
  let dirsErrs :=
    match o.dirs with
    | none => ["Param dirs is required!"]
    | some (.str s) => if s = "" then ["Param dirs is required!"] else []
    | some .other => ["Param dirs must be string or array!"]
    | some (.arr items) => items.enum.filterMap itemError
  let batchErrs :=
    match o.batchSize with
    | none => []
    | some (.jnum n) => if n < 1 then ["BatchSize must be number and greater than 0!"] else []
    | some _ => ["BatchSize must be number and greater than 0!"]
  let timeoutErrs :=
    match o.timeout with
    | none => []
    | some (.jnum n) => if n < 1000 then ["Timeout must be number and greater than 1000!"] else []
    | some _ => ["Timeout must be number and greater than 1000!"]
  dirsErrs ++ batchErrs ++ timeoutErrs

/-- The configuration a successfully constructed plugin instance closes
over (after destructuring with defaults). -/
structure PluginCfg where
  dirs : DirsVal
  batchSize : Int
  timeout : Int
deriving DecidableEq

/-- Plugin construction (`VitePluginPreloadImages`): runs `validateOptions`
first and throws the aggregated error before doing anything else.  The
model returns `Except`; note the function takes no filesystem environment,
so no pattern expansion can occur during construction. -/
def VitePluginPreloadImages (o : JsOptions) : Except (List String) PluginCfg :=
  match validateOptions o with
  | [] =>
      .ok
        { dirs := (o.dirs).getD (.str "")
          batchSize := match o.batchSize with | some (.jnum n) => n | _ => 2
          timeout := match o.timeout with | some (.jnum n) => n | _ => 5000 }
  | e :: es => .error (e :: es)

/-- The filesystem capability backing `fast-glob`: pattern and optional
`cwd` option to the list of matching relative paths.  The glob options
object the source builds is either the empty object (modelled `none`) or
one `cwd` key (modelled `some cwd`). -/
structure GlobEnv where
  fs : String → Option String → List String

/-- The module-level `globCache` Map, keyed by pattern and glob options,
threaded explicitly through every hook invocation (in JavaScript it is a
module-scope `Map` that lives for the whole process). -/
abbrev Cache := List ((String × Option String) × List String)

/-- Association-list lookup, the model of `globCache.get` / `.has`. -/
def lookupCache (c : Cache) (k : String × Option String) : Option (List String) :=
  match c with
  | [] => none
  | (k2, v) :: t => if k2 = k then some v else lookupCache t k

/-- The `getCachedGlobSync` function: consult the cache, otherwise run the
glob and store its result (appending the new key, as `Map.set` does for a
fresh key), and return the stored value. -/
def getCachedGlobSync (env : GlobEnv) (c : Cache) (pattern : String) (cwd : Option String) :
    List String × Cache :=
  match lookupCache c (pattern, cwd) with
  | some v => (v, c)
  | none => (env.fs pattern cwd, c ++ [((pattern, cwd), env.fs pattern cwd)])

/-- String containment the way JavaScript `hay.includes(needle)` works,
on character lists. -/
def charListIncludes : List Char → List Char → Bool
  | [], needle => needle.isEmpty
  | c :: t, needle => needle.isPrefixOf (c :: t) || charListIncludes t needle

/-- JavaScript `hay.includes(needle)` on strings. -/
def jsIncludes (hay needle : String) : Bool :=
  charListIncludes hay.data needle.data

/-- One emitted build artifact as the plugin sees it: the final served
name (`fileName`), the symbolic `name`, and the optional pre-transform
source path (`originalFileName`, present only on rollup ≥ 4.20.0; the
source tests it for truthiness, so `some ""` behaves like `none`). -/
structure Bundle where
  fileName : String
  name : String
  originalFileName : Option String
deriving DecidableEq

/-- The `matchBundleWithFiles` function: with a truthy `originalFileName`,
exact membership in the expanded file list; otherwise the fallback
`files.some (file => file.includes(bundle.name))`. -/
def matchBundleWithFiles (b : Bundle) (files : Option (List String)) : Bool :=
  match files with
  | none => false
  | some fs =>
    match b.originalFileName with
    | some o => if o ≠ "" then fs.contains o else fs.any fun f => jsIncludes f b.name
    | none => fs.any fun f => jsIncludes f b.name

/-- The `collectMatchedFiles` function: expand the pattern through the
cache (callers pass no glob options, i.e. `cwd = none`) and push the
`fileName` of every matching bundle. -/
def collectMatchedFiles (env : GlobEnv) (pattern : String) (bundles : List Bundle) (c : Cache) :
    List String × Cache :=
  let r := getCachedGlobSync env c pattern none
  ((bundles.filter fun b => matchBundleWithFiles b (some r.1)).map Bundle.fileName, r.2)

/-- One `dirs` array entry of the `generateBundle` hook: string entries
use the global `publicDir` flag, records their own `publicDir` field
(JavaScript truthiness), and only falsy-flag targets collect matches. -/
def gbItemStep (env : GlobEnv) (publicDir : Bool) (bundles : List Bundle) :
    List String × Cache → DirsItem → List String × Cache
  | acc, .str s =>
      if publicDir then acc
      else
        let r := collectMatchedFiles env s bundles acc.2
        (acc.1 ++ r.1, r.2)
  | acc, .record d pd =>
      if pd.truthy then acc
      else
        let r := collectMatchedFiles env d bundles acc.2
        (acc.1 ++ r.1, r.2)
  | acc, .malformed => acc

/-- The `generateBundle` hook: in production, for every target whose
public-directory flag is falsy, append the matched bundle file names to
the per-instance `assets` accumulator (`gbItemStep` handles one `dirs`
array entry).  Returns the new accumulator and cache; nothing is ever
removed from the accumulator. -/
def generateBundle (env : GlobEnv) (dirs : DirsVal) (publicDir : Bool) (bundles : List Bundle)
    (assets : List String) (c : Cache) : List String × Cache :=
  match dirs with
  | .str s =>
      if publicDir then (assets, c)
      else
        let r := collectMatchedFiles env s bundles c
        (assets ++ r.1, r.2)
  | .arr items => items.foldl (gbItemStep env publicDir bundles) (assets, c)
  | .other => (assets, c)

/-- Dev-mode (`ctx.server`) handling of one `dirs` array entry in
`transformIndexHtml`: the guard `publicDir && !config.publicDir` (the
global flag for bare strings, `item.publicDir` for records) skips the
target, otherwise the pattern is expanded with `cwd` set to the public
root exactly when the relevant flag is truthy.  `configPD` is the
resolved `config.publicDir` string, `""` when the project has no public
root (JavaScript falsy). -/
def devItemStep (env : GlobEnv) (publicDir : Bool) (configPD : String) :
    List String × Cache → DirsItem → List String × Cache
  | (imgs, c), .str s =>
      if publicDir ∧ configPD = "" then (imgs, c)
      else
        let r := getCachedGlobSync env c s (if publicDir then some configPD else none)
        (imgs ++ r.1, r.2)
  | (imgs, c), .record d pd =>
      if pd.truthy ∧ configPD = "" then (imgs, c)
      else
        let r := getCachedGlobSync env c d (if pd.truthy then some configPD else none)
        (imgs ++ r.1, r.2)
  | acc, .malformed => acc

/-- Production-mode handling of one `dirs` array entry in
`transformIndexHtml`: only public-root targets contribute here (processed
targets were already collected by `generateBundle`), and only when
`config.publicDir` is truthy. -/
def prodItemStep (env : GlobEnv) (publicDir : Bool) (configPD : String) :
    List String × Cache → DirsItem → List String × Cache
  | (imgs, c), .str s =>
      if publicDir ∧ configPD ≠ "" then
        let r := getCachedGlobSync env c s (some configPD)
        (imgs ++ r.1, r.2)
      else (imgs, c)
  | (imgs, c), .record d pd =>
      if pd.truthy ∧ configPD ≠ "" then
        let r := getCachedGlobSync env c d (some configPD)
        (imgs ++ r.1, r.2)
      else (imgs, c)
  | acc, .malformed => acc

/-- The raw `images` list `transformIndexHtml` accumulates before
deduplication, together with the updated cache.  Note the dev-mode bare
string branch has no `!config.publicDir` guard: it always expands, with
`cwd` set to the (possibly empty) public root whenever the global flag is
set.  In production the per-instance `assets` accumulator is appended at
the end. -/
def collectRawImages (env : GlobEnv) (dirs : DirsVal) (publicDir : Bool) (configPD : String)
    (server : Bool) (assets : List String) (c : Cache) : List String × Cache :=
  if server then
    match dirs with
    | .str s => getCachedGlobSync env c s (if publicDir then some configPD else none)
    | .arr items => items.foldl (devItemStep env publicDir configPD) ([], c)
    | .other => ([], c)
  else
    let r :=
      match dirs with
      | .str s =>
          if publicDir ∧ configPD ≠ "" then getCachedGlobSync env c s (some configPD)
          else ([], c)
      | .arr items => items.foldl (prodItemStep env publicDir configPD) ([], c)
      | .other => ([], c)
    (r.1 ++ assets, r.2)

/-- Auxiliary traversal for `dedupFirst`: keep an element when it has not
been seen yet, remembering everything kept so far. -/
def dedupFirstAux (seen : List String) : List String → List String
  | [] => []
  | x :: xs => if x ∈ seen then dedupFirstAux seen xs else x :: dedupFirstAux (x :: seen) xs

/-- Order-preserving deduplication keeping the first occurrence of each
element — the semantics of `Array.from(new Set(xs))`. -/
def dedupFirst (l : List String) : List String :=
  dedupFirstAux [] l

/-- The image-list computation of the `transformIndexHtml` hook: collect
the raw list for the current mode, then `images = Array.from(new
Set(images))`. -/
def transformImages (env : GlobEnv) (dirs : DirsVal) (publicDir : Bool) (configPD : String)
    (server : Bool) (assets : List String) (c : Cache) : List String × Cache :=
  let r := collectRawImages env dirs publicDir configPD server assets c
  (dedupFirst r.1, r.2)

/-- A cache is coherent with the environment when every stored entry is
what the filesystem would currently return for its key (true of the empty
cache, and preserved by every hook as long as the tree is unchanged). -/
def Coherent (env : GlobEnv) (c : Cache) : Prop :=
  ∀ p w v, lookupCache c (p, w) = some v → v = env.fs p w

/-- Pure dev-mode contribution of one `dirs` array entry: what
`devItemStep` appends when the cache is coherent with the filesystem. -/
def devItemPure (env : GlobEnv) (publicDir : Bool) (configPD : String) : DirsItem → List String
  | .str s =>
      if publicDir ∧ configPD = "" then []
      else env.fs s (if publicDir then some configPD else none)
  | .record d pd =>
      if pd.truthy ∧ configPD = "" then []
      else env.fs d (if pd.truthy then some configPD else none)
  | .malformed => []

/-- Pure production-mode contribution of one `dirs` array entry. -/
def prodItemPure (env : GlobEnv) (publicDir : Bool) (configPD : String) : DirsItem → List String
  | .str s => if publicDir ∧ configPD ≠ "" then env.fs s (some configPD) else []
  | .record d pd => if pd.truthy ∧ configPD ≠ "" then env.fs d (some configPD) else []
  | .malformed => []

/-- The raw image list as a pure function of the filesystem: what
`collectRawImages` computes whenever its cache is coherent. -/
def pureRawImages (env : GlobEnv) (dirs : DirsVal) (publicDir : Bool) (configPD : String)
    (server : Bool) (assets : List String) : List String :=
  if server then
    match dirs with
    | .str s => env.fs s (if publicDir then some configPD else none)
    | .arr items => (items.map (devItemPure env publicDir configPD)).flatten
    | .other => []
  else
    (match dirs with
     | .str s => if publicDir ∧ configPD ≠ "" then env.fs s (some configPD) else []
     | .arr items => (items.map (prodItemPure env publicDir configPD)).flatten
     | .other => []) ++ assets

theorem lookupCache_append_of_some {c : Cache} {k : String × Option String} {v : List String}
    (d : Cache) (h : lookupCache c k = some v) : lookupCache (c ++ d) k = some v := by
  induction c with
  | nil => simp [lookupCache] at h
  | cons e t ih =>
    obtain ⟨k2, w⟩ := e
    by_cases hk : k2 = k
    · simpa [lookupCache, hk] using h
    · rw [List.cons_append, lookupCache, if_neg hk]
      rw [lookupCache, if_neg hk] at h
      exact ih h

theorem lookupCache_append_single {c : Cache} (k : String × Option String) (v : List String)
    (k2 : String × Option String) :
    lookupCache (c ++ [(k, v)]) k2 =
      match lookupCache c k2 with
      | some w => some w
      | none => if k = k2 then some v else none := by
  induction c with
  | nil => simp [lookupCache]
  | cons e t ih =>
    obtain ⟨k3, w⟩ := e
    by_cases hk : k3 = k2
    · simp [lookupCache, hk]
    · rw [List.cons_append, lookupCache, if_neg hk, lookupCache, if_neg hk]
      exact ih

theorem getCachedGlobSync_fst_coherent {env : GlobEnv} {c : Cache} (hc : Coherent env c)
    (p : String) (w : Option String) : (getCachedGlobSync env c p w).1 = env.fs p w := by
  cases h : lookupCache c (p, w) with
  | none => simp [getCachedGlobSync, h]
  | some v => simpa [getCachedGlobSync, h] using hc p w v h

theorem getCachedGlobSync_snd_coherent {env : GlobEnv} {c : Cache} (hc : Coherent env c)
    (p : String) (w : Option String) : Coherent env (getCachedGlobSync env c p w).2 := by
  cases h : lookupCache c (p, w) with
  | some v => simpa [getCachedGlobSync, h] using hc
  | none =>
    simp only [getCachedGlobSync, h]
    intro p2 w2 v2 h2
    rw [lookupCache_append_single] at h2
    cases h3 : lookupCache c (p2, w2) with
    | some u => rw [h3] at h2; exact hc p2 w2 v2 (h3.trans (by injection h2 with h4; rw [h4]))
    | none =>
      rw [h3] at h2
      by_cases hk : (p, w) = (p2, w2)
      · rw [if_pos hk] at h2
        injection h2 with h4
        obtain ⟨hp, hw⟩ := Prod.mk.injEq .. ▸ hk
        subst hp; subst hw; exact h4.symm
      · rw [if_neg hk] at h2; exact absurd h2 (by simp)

theorem getCachedGlobSync_mono {env : GlobEnv} {c : Cache} {k : String × Option String}
    {u : List String} (h : lookupCache c k = some u) (p : String) (w : Option String) :
    lookupCache (getCachedGlobSync env c p w).2 k = some u := by
  cases hl : lookupCache c (p, w) with
  | some v => simpa [getCachedGlobSync, hl] using h
  | none => simp only [getCachedGlobSync, hl]; exact lookupCache_append_of_some _ h

theorem devItemStep_fst {env : GlobEnv} {c : Cache} (hc : Coherent env c)
    (pub : Bool) (pd : String) (imgs : List String) (it : DirsItem) :
    (devItemStep env pub pd (imgs, c) it).1 = imgs ++ devItemPure env pub pd it := by
  cases it with
  | str s =>
    by_cases hg : pub = true ∧ pd = ""
    · simp [devItemStep, devItemPure, if_pos hg]
    · simp [devItemStep, devItemPure, if_neg hg, getCachedGlobSync_fst_coherent hc]
  | record d p2 =>
    by_cases hg : p2.truthy = true ∧ pd = ""
    · simp [devItemStep, devItemPure, if_pos hg]
    · simp [devItemStep, devItemPure, if_neg hg, getCachedGlobSync_fst_coherent hc]
  | malformed => simp [devItemStep, devItemPure]

theorem devItemStep_snd {env : GlobEnv} {c : Cache} (hc : Coherent env c)
    (pub : Bool) (pd : String) (imgs : List String) (it : DirsItem) :
    Coherent env (devItemStep env pub pd (imgs, c) it).2 := by
  cases it with
  | str s =>
    by_cases hg : pub = true ∧ pd = ""
    · simpa [devItemStep, if_pos hg] using hc
    · simpa [devItemStep, if_neg hg] using getCachedGlobSync_snd_coherent hc _ _
  | record d p2 =>
    by_cases hg : p2.truthy = true ∧ pd = ""
    · simpa [devItemStep, if_pos hg] using hc
    · simpa [devItemStep, if_neg hg] using getCachedGlobSync_snd_coherent hc _ _
  | malformed => simpa [devItemStep] using hc

theorem prodItemStep_fst {env : GlobEnv} {c : Cache} (hc : Coherent env c)
    (pub : Bool) (pd : String) (imgs : List String) (it : DirsItem) :
    (prodItemStep env pub pd (imgs, c) it).1 = imgs ++ prodItemPure env pub pd it := by
  cases it with
  | str s =>
    by_cases hg : pub = true ∧ pd ≠ ""
    · simp [prodItemStep, prodItemPure, if_pos hg, getCachedGlobSync_fst_coherent hc]
    · simp [prodItemStep, prodItemPure, if_neg hg]
  | record d p2 =>
    by_cases hg : p2.truthy = true ∧ pd ≠ ""
    · simp [prodItemStep, prodItemPure, if_pos hg, getCachedGlobSync_fst_coherent hc]
    · simp [prodItemStep, prodItemPure, if_neg hg]
  | malformed => simp [prodItemStep, prodItemPure]

theorem prodItemStep_snd {env : GlobEnv} {c : Cache} (hc : Coherent env c)
    (pub : Bool) (pd : String) (imgs : List String) (it : DirsItem) :
    Coherent env (prodItemStep env pub pd (imgs, c) it).2 := by
  cases it with
  | str s =>
    by_cases hg : pub = true ∧ pd ≠ ""
    · simpa [prodItemStep, if_pos hg] using getCachedGlobSync_snd_coherent hc _ _
    · simpa [prodItemStep, if_neg hg] using hc
  | record d p2 =>
    by_cases hg : p2.truthy = true ∧ pd ≠ ""
    · simpa [prodItemStep, if_pos hg] using getCachedGlobSync_snd_coherent hc _ _
    · simpa [prodItemStep, if_neg hg] using hc
  | malformed => simpa [prodItemStep] using hc

theorem devFold_fst {env : GlobEnv} (pub : Bool) (pd : String) :
    ∀ (items : List DirsItem) (imgs : List String) (c : Cache), Coherent env c →
      (items.foldl (devItemStep env pub pd) (imgs, c)).1 =
        imgs ++ (items.map (devItemPure env pub pd)).flatten := by
  intro items
  induction items with
  | nil => intro imgs c _; simp
  | cons it t ih =>
    intro imgs c hc
    rw [List.foldl_cons]
    rcases hstep : devItemStep env pub pd (imgs, c) it with ⟨i2, c2⟩
    have h1 : i2 = imgs ++ devItemPure env pub pd it := by
      have := devItemStep_fst hc pub pd imgs it; rw [hstep] at this; exact this
    have h2 : Coherent env c2 := by
      have := devItemStep_snd hc pub pd imgs it; rw [hstep] at this; exact this
    rw [ih i2 c2 h2, h1]
    simp

theorem devFold_snd {env : GlobEnv} (pub : Bool) (pd : String) :
    ∀ (items : List DirsItem) (imgs : List String) (c : Cache), Coherent env c →
      Coherent env (items.foldl (devItemStep env pub pd) (imgs, c)).2 := by
  intro items
  induction items with
  | nil => intro imgs c hc; simpa using hc
  | cons it t ih =>
    intro imgs c hc
    rw [List.foldl_cons]
    rcases hstep : devItemStep env pub pd (imgs, c) it with ⟨i2, c2⟩
    have h2 : Coherent env c2 := by
      have := devItemStep_snd hc pub pd imgs it; rw [hstep] at this; exact this
    exact ih i2 c2 h2

theorem prodFold_fst {env : GlobEnv} (pub : Bool) (pd : String) :
    ∀ (items : List DirsItem) (imgs : List String) (c : Cache), Coherent env c →
      (items.foldl (prodItemStep env pub pd) (imgs, c)).1 =
        imgs ++ (items.map (prodItemPure env pub pd)).flatten := by
  intro items
  induction items with
  | nil => intro imgs c _; simp
  | cons it t ih =>
    intro imgs c hc
    rw [List.foldl_cons]
    rcases hstep : prodItemStep env pub pd (imgs, c) it with ⟨i2, c2⟩
    have h1 : i2 = imgs ++ prodItemPure env pub pd it := by
      have := prodItemStep_fst hc pub pd imgs it; rw [hstep] at this; exact this
    have h2 : Coherent env c2 := by
      have := prodItemStep_snd hc pub pd imgs it; rw [hstep] at this; exact this
    rw [ih i2 c2 h2, h1]
    simp

theorem prodFold_snd {env : GlobEnv} (pub : Bool) (pd : String) :
    ∀ (items : List DirsItem) (imgs : List String) (c : Cache), Coherent env c →
      Coherent env (items.foldl (prodItemStep env pub pd) (imgs, c)).2 := by
  intro items
  induction items with
  | nil => intro imgs c hc; simpa using hc
  | cons it t ih =>
    intro imgs c hc
    rw [List.foldl_cons]
    rcases hstep : prodItemStep env pub pd (imgs, c) it with ⟨i2, c2⟩
    have h2 : Coherent env c2 := by
      have := prodItemStep_snd hc pub pd imgs it; rw [hstep] at this; exact this
    exact ih i2 c2 h2

theorem collectRawImages_fst {env : GlobEnv} {c : Cache} (hc : Coherent env c)
    (dirs : DirsVal) (pub : Bool) (pd : String) (server : Bool) (assets : List String) :
    (collectRawImages env dirs pub pd server assets c).1 =
      pureRawImages env dirs pub pd server assets := by
  cases server with
  | true =>
    cases dirs with
    | str s => simp [collectRawImages, pureRawImages, getCachedGlobSync_fst_coherent hc]
    | arr items => simpa [collectRawImages, pureRawImages] using devFold_fst pub pd items [] c hc
    | other => simp [collectRawImages, pureRawImages]
  | false =>
    cases dirs with
    | str s =>
      by_cases hg : pub = true ∧ pd ≠ ""
      · simp [collectRawImages, pureRawImages, if_pos hg, getCachedGlobSync_fst_coherent hc]
      · simp [collectRawImages, pureRawImages, if_neg hg]
    | arr items =>
      simpa [collectRawImages, pureRawImages] using prodFold_fst pub pd items [] c hc
    | other => simp [collectRawImages, pureRawImages]

theorem collectRawImages_snd {env : GlobEnv} {c : Cache} (hc : Coherent env c)
    (dirs : DirsVal) (pub : Bool) (pd : String) (server : Bool) (assets : List String) :
    Coherent env (collectRawImages env dirs pub pd server assets c).2 := by
  cases server with
  | true =>
    cases dirs with
    | str s => simpa [collectRawImages] using getCachedGlobSync_snd_coherent hc _ _
    | arr items => simpa [collectRawImages] using devFold_snd pub pd items [] c hc
    | other => simpa [collectRawImages] using hc
  | false =>
    cases dirs with
    | str s =>
      by_cases hg : pub = true ∧ pd ≠ ""
      · simpa [collectRawImages, if_pos hg] using getCachedGlobSync_snd_coherent hc _ _
      · simpa [collectRawImages, if_neg hg] using hc
    | arr items => simpa [collectRawImages] using prodFold_snd pub pd items [] c hc
    | other => simpa [collectRawImages] using hc

theorem transformImages_fst {env : GlobEnv} {c : Cache} (hc : Coherent env c)
    (dirs : DirsVal) (pub : Bool) (pd : String) (server : Bool) (assets : List String) :
    (transformImages env dirs pub pd server assets c).1 =
      dedupFirst (pureRawImages env dirs pub pd server assets) := by
  simp [transformImages, collectRawImages_fst hc]

theorem transformImages_snd {env : GlobEnv} {c : Cache} (hc : Coherent env c)
    (dirs : DirsVal) (pub : Bool) (pd : String) (server : Bool) (assets : List String) :
    Coherent env (transformImages env dirs pub pd server assets c).2 := by
  simpa [transformImages] using collectRawImages_snd hc dirs pub pd server assets

theorem mem_dedupFirstAux (x : String) (l : List String) :
    ∀ seen : List String, x ∈ dedupFirstAux seen l ↔ x ∈ l ∧ x ∉ seen := by
  induction l with
  | nil => intro seen; simp [dedupFirstAux]
  | cons y ys ih =>
    intro seen
    by_cases hy : y ∈ seen
    · rw [dedupFirstAux, if_pos hy]
      simp only [ih, List.mem_cons]
      constructor
      · rintro ⟨h1, h2⟩; exact ⟨Or.inr h1, h2⟩
      · rintro ⟨h1 | h1, h2⟩
        · exact absurd (h1 ▸ hy) h2
        · exact ⟨h1, h2⟩
    · rw [dedupFirstAux, if_neg hy]
      simp only [List.mem_cons, ih]
      constructor
      · rintro (rfl | ⟨h1, h2⟩)
        · exact ⟨Or.inl rfl, hy⟩
        · exact ⟨Or.inr h1, fun hx => h2 (Or.inr hx)⟩
      · rintro ⟨h1 | h1, h2⟩
        · exact Or.inl h1
        · by_cases hxy : x = y
          · exact Or.inl hxy
          · exact Or.inr ⟨h1, fun hx => hx.elim hxy h2⟩

theorem nodup_dedupFirstAux (l : List String) :
    ∀ seen : List String, (dedupFirstAux seen l).Nodup := by
  induction l with
  | nil => intro seen; simp [dedupFirstAux]
  | cons y ys ih =>
    intro seen
    by_cases hy : y ∈ seen
    · rw [dedupFirstAux, if_pos hy]; exact ih seen
    · rw [dedupFirstAux, if_neg hy, List.nodup_cons]
      refine ⟨fun hmem => ?_, ih (y :: seen)⟩
      exact ((mem_dedupFirstAux y ys (y :: seen)).mp hmem).2 (List.mem_cons_self y seen)

theorem dedupFirstAux_sublist (l : List String) :
    ∀ seen : List String, (dedupFirstAux seen l).Sublist l := by
  induction l with
  | nil => intro seen; simp [dedupFirstAux]
  | cons y ys ih =>
    intro seen
    by_cases hy : y ∈ seen
    · rw [dedupFirstAux, if_pos hy]; exact (ih seen).cons y
    · rw [dedupFirstAux, if_neg hy]; exact (ih (y :: seen)).cons₂ y

theorem dedupFirstAux_eq_self (l : List String) :
    ∀ seen : List String, l.Nodup → (∀ x ∈ l, x ∉ seen) → dedupFirstAux seen l = l := by
  induction l with
  | nil => intro seen _ _; simp [dedupFirstAux]
  | cons y ys ih =>
    intro seen hnd hdisj
    have hy : y ∉ seen := hdisj y (List.mem_cons_self y ys)
    rw [dedupFirstAux, if_neg hy]
    rw [List.nodup_cons] at hnd
    congr 1
    refine ih (y :: seen) hnd.2 fun x hx hmem => ?_
    rcases List.mem_cons.mp hmem with rfl | hmem2
    · exact hnd.1 hx
    · exact hdisj x (List.mem_cons_of_mem y hx) hmem2

theorem dedupFirstAux_congr (l : List String) :
    ∀ seen seen2 : List String, (∀ z, z ∈ seen ↔ z ∈ seen2) →
      dedupFirstAux seen l = dedupFirstAux seen2 l := by
  induction l with
  | nil => intro seen seen2 _; simp [dedupFirstAux]
  | cons y ys ih =>
    intro seen seen2 hequiv
    by_cases hy : y ∈ seen
    · rw [dedupFirstAux, if_pos hy, dedupFirstAux, if_pos ((hequiv y).mp hy)]
      exact ih seen seen2 hequiv
    · rw [dedupFirstAux, if_neg hy, dedupFirstAux, if_neg (fun h => hy ((hequiv y).mpr h))]
      congr 1
      refine ih (y :: seen) (y :: seen2) fun z => ?_
      simp only [List.mem_cons]
      exact or_congr Iff.rfl (hequiv z)

theorem dedupFirstAux_seen_filter (l : List String) :
    ∀ (seen : List String) (x : String),
      dedupFirstAux (x :: seen) l = dedupFirstAux seen (l.filter fun y => y != x) := by
  induction l with
  | nil => intro seen x; simp [dedupFirstAux]
  | cons y ys ih =>
    intro seen x
    by_cases hxy : y = x
    · subst hxy
      rw [dedupFirstAux, if_pos (List.mem_cons_self y seen)]
      have : (List.filter (fun z => z != y) (y :: ys)) = List.filter (fun z => z != y) ys := by
        simp [List.filter_cons]
      rw [this]
      exact ih seen y
    · have hkeep : (List.filter (fun z => z != x) (y :: ys)) =
          y :: List.filter (fun z => z != x) ys := by
        simp [List.filter_cons, hxy]
      rw [hkeep]
      by_cases hy : y ∈ seen
      · rw [dedupFirstAux, if_pos (List.mem_cons_of_mem x hy), dedupFirstAux, if_pos hy]
        exact ih seen x
      · have hy2 : y ∉ x :: seen := by
          intro h; rcases List.mem_cons.mp h with h2 | h2
          · exact hxy h2
          · exact hy h2
        rw [dedupFirstAux, if_neg hy2, dedupFirstAux, if_neg hy]
        congr 1
        have hswap : dedupFirstAux (y :: x :: seen) ys = dedupFirstAux (x :: y :: seen) ys := by
          refine dedupFirstAux_congr ys _ _ fun z => ?_
          simp only [List.mem_cons]
          tauto
        rw [hswap, ih (y :: seen) x]

theorem dedupFirst_cons (x : String) (xs : List String) :
    dedupFirst (x :: xs) = x :: dedupFirst (xs.filter fun y => y != x) := by
  rw [dedupFirst, dedupFirstAux, if_neg (List.not_mem_nil x)]
  rw [dedupFirstAux_seen_filter]
  rfl

theorem mem_dedupFirst (x : String) (l : List String) : x ∈ dedupFirst l ↔ x ∈ l := by
  rw [dedupFirst, mem_dedupFirstAux]
  simp

theorem nodup_dedupFirst (l : List String) : (dedupFirst l).Nodup :=
  nodup_dedupFirstAux l []

theorem dedupFirst_sublist (l : List String) : (dedupFirst l).Sublist l :=
  dedupFirstAux_sublist l []

theorem dedupFirst_eq_self {l : List String} (h : l.Nodup) : dedupFirst l = l :=
  dedupFirstAux_eq_self l [] h (by simp)

theorem devItemStep_mono {env : GlobEnv} {c : Cache} {k : String × Option String}
    {u : List String} (h : lookupCache c k = some u) (pub : Bool) (pd : String)
    (imgs : List String) (it : DirsItem) :
    lookupCache (devItemStep env pub pd (imgs, c) it).2 k = some u := by
  cases it with
  | str s =>
    by_cases hg : pub = true ∧ pd = ""
    · simpa [devItemStep, if_pos hg] using h
    · simpa [devItemStep, if_neg hg] using getCachedGlobSync_mono h _ _
  | record d p2 =>
    by_cases hg : p2.truthy = true ∧ pd = ""
    · simpa [devItemStep, if_pos hg] using h
    · simpa [devItemStep, if_neg hg] using getCachedGlobSync_mono h _ _
  | malformed => simpa [devItemStep] using h

theorem prodItemStep_mono {env : GlobEnv} {c : Cache} {k : String × Option String}
    {u : List String} (h : lookupCache c k = some u) (pub : Bool) (pd : String)
    (imgs : List String) (it : DirsItem) :
    lookupCache (prodItemStep env pub pd (imgs, c) it).2 k = some u := by
  cases it with
  | str s =>
    by_cases hg : pub = true ∧ pd ≠ ""
    · simpa [prodItemStep, if_pos hg] using getCachedGlobSync_mono h _ _
    · simpa [prodItemStep, if_neg hg] using h
  | record d p2 =>
    by_cases hg : p2.truthy = true ∧ pd ≠ ""
    · simpa [prodItemStep, if_pos hg] using getCachedGlobSync_mono h _ _
    · simpa [prodItemStep, if_neg hg] using h
  | malformed => simpa [prodItemStep] using h

theorem devFold_mono {env : GlobEnv} {k : String × Option String} {u : List String}
    (pub : Bool) (pd : String) :
    ∀ (items : List DirsItem) (imgs : List String) (c : Cache), lookupCache c k = some u →
      lookupCache (items.foldl (devItemStep env pub pd) (imgs, c)).2 k = some u := by
  intro items
  induction items with
  | nil => intro imgs c h; simpa using h
  | cons it t ih =>
    intro imgs c h
    rw [List.foldl_cons]
    rcases hstep : devItemStep env pub pd (imgs, c) it with ⟨i2, c2⟩
    have h2 : lookupCache c2 k = some u := by
      have := @devItemStep_mono env c k u h pub pd imgs it; rw [hstep] at this; exact this
    exact ih i2 c2 h2

theorem prodFold_mono {env : GlobEnv} {k : String × Option String} {u : List String}
    (pub : Bool) (pd : String) :
    ∀ (items : List DirsItem) (imgs : List String) (c : Cache), lookupCache c k = some u →
      lookupCache (items.foldl (prodItemStep env pub pd) (imgs, c)).2 k = some u := by
  intro items
  induction items with
  | nil => intro imgs c h; simpa using h
  | cons it t ih =>
    intro imgs c h
    rw [List.foldl_cons]
    rcases hstep : prodItemStep env pub pd (imgs, c) it with ⟨i2, c2⟩
    have h2 : lookupCache c2 k = some u := by
      have := @prodItemStep_mono env c k u h pub pd imgs it; rw [hstep] at this; exact this
    exact ih i2 c2 h2

theorem transformImages_mono {env : GlobEnv} {c : Cache} {k : String × Option String}
    {u : List String} (h : lookupCache c k = some u) (dirs : DirsVal) (pub : Bool)
    (pd : String) (server : Bool) (assets : List String) :
    lookupCache (transformImages env dirs pub pd server assets c).2 k = some u := by
  cases server with
  | true =>
    cases dirs with
    | str s => simpa [transformImages, collectRawImages] using getCachedGlobSync_mono h _ _
    | arr items =>
      simpa [transformImages, collectRawImages] using devFold_mono pub pd items [] c h
    | other => simpa [transformImages, collectRawImages] using h
  | false =>
    cases dirs with
    | str s =>
      by_cases hg : pub = true ∧ pd ≠ ""
      · simpa [transformImages, collectRawImages, if_pos hg] using getCachedGlobSync_mono h _ _
      · simpa [transformImages, collectRawImages, if_neg hg] using h
    | arr items =>
      simpa [transformImages, collectRawImages] using prodFold_mono pub pd items [] c h
    | other => simpa [transformImages, collectRawImages] using h

/-- Terminal outcome of one preload item in the generated script: the
`link.onload` event, the `link.onerror` event, or the timeout timer —
whichever fires first (it cancels the others). -/
inductive Outcome
  | loaded
  | failed
  | timedOut
deriving DecidableEq

/-- State of one of the `batchSize` `loadImages` worker loops of the
generated script: about to test `images.length` (`idle`), awaiting
`loadImage(url)` (`inflight`), or exited its `while` loop (`finished`). -/
inductive WStatus
  | idle
  | inflight (url : String)
  | finished
deriving DecidableEq

/-- Global state of the generated scheduler: the shared `images` queue,
the worker loops created by `Array.from` over `batchSize`, and the log of
completed items with their outcomes. -/
structure Sched where
  queue : List String
  workers : List WStatus
  done : List (String × Outcome)
deriving DecidableEq

/-- Initial scheduler state: the serialized resolved URL list and `n`
idle workers, `n` = `batchSize`. -/
def initSched (urls : List String) (n : Nat) : Sched :=
  ⟨urls, List.replicate n .idle, []⟩

/-- The state after worker `i` finishes processing `u` with outcome `o`:
the `try/catch` around `await loadImage(images.shift())` returns control
to the loop head whatever the outcome was (a rejection is caught and only
logged, never re-thrown), and the item is recorded as done. -/
def completeState (s : Sched) (i : Nat) (u : String) (o : Outcome) : Sched :=
  ⟨s.queue, s.workers.set i .idle, s.done ++ [(u, o)]⟩

/-- One interleaving step of the generated scheduler.  An idle worker
either pops the queue head and starts loading it (`images.shift()` and
the `loadImage` call happen synchronously between awaits, so pop and
start are one atomic step on the single JavaScript event loop), or exits
when the queue is empty; an in-flight item completes with an arbitrary
outcome (load, error or timeout — whichever event fires first). -/
inductive SchedStep : Sched → Sched → Prop
  | start (s : Sched) (i : Nat) (u : String) (rest : List String)
      (hq : s.queue = u :: rest) (hw : s.workers.get? i = some .idle) :
      SchedStep s ⟨rest, s.workers.set i (.inflight u), s.done⟩
  | exit (s : Sched) (i : Nat) (hq : s.queue = []) (hw : s.workers.get? i = some .idle) :
      SchedStep s ⟨s.queue, s.workers.set i .finished, s.done⟩
  | complete (s : Sched) (i : Nat) (u : String) (o : Outcome)
      (hw : s.workers.get? i = some (.inflight u)) :
      SchedStep s (completeState s i u o)

/-- Reachability from a given initial state. -/
inductive Reach (s0 : Sched) : Sched → Prop
  | refl : Reach s0 s0
  | step {s t : Sched} : Reach s0 s → SchedStep s t → Reach s0 t

/-- Worker currently loading some URL. -/
def isInflightW : WStatus → Bool
  | .inflight _ => true
  | _ => false

/-- Worker currently loading exactly the URL `u`. -/
def isInflightFor (u : String) : WStatus → Bool
  | .inflight v => v == u
  | _ => false

/-- Number of in-flight preload requests in a scheduler state. -/
def inflightCount (s : Sched) : Nat :=
  s.workers.countP isInflightW

theorem countP_set_eq {α : Type} (p : α → Bool) :
    ∀ (l : List α) (i : Nat) (w v : α), l.get? i = some w →
      (l.set i v).countP p + (if p w then 1 else 0) =
        l.countP p + (if p v then 1 else 0) := by
  intro l
  induction l with
  | nil => intro i w v h; simp at h
  | cons a t ih =>
    intro i w v h
    cases i with
    | zero =>
      rw [List.get?_cons_zero] at h
      injection h with h
      subst h
      rw [List.set_cons_zero, List.countP_cons, List.countP_cons]
      omega
    | succ j =>
      rw [List.get?_cons_succ] at h
      rw [List.set_cons_succ, List.countP_cons, List.countP_cons]
      have := ih j w v h
      omega

theorem sum_map_set_eq {α : Type} (f : α → Nat) :
    ∀ (l : List α) (i : Nat) (w v : α), l.get? i = some w →
      ((l.set i v).map f).sum + f w = (l.map f).sum + f v := by
  intro l
  induction l with
  | nil => intro i w v h; simp at h
  | cons a t ih =>
    intro i w v h
    cases i with
    | zero =>
      rw [List.get?_cons_zero] at h
      injection h with h
      subst h
      rw [List.set_cons_zero]
      simp only [List.map_cons, List.sum_cons]
      omega
    | succ j =>
      rw [List.get?_cons_succ] at h
      rw [List.set_cons_succ]
      simp only [List.map_cons, List.sum_cons]
      have := ih j w v h
      omega

/-- Inductive invariant of the scheduler: the worker pool size is fixed
at `batchSize`, every URL of the input list is accounted for exactly once
across the queue, the in-flight slots and the done log, and once any
worker has exited the queue must already be empty (the queue never
grows, and a worker only exits on an empty queue). -/
structure SchedInv (urls : List String) (n : Nat) (s : Sched) : Prop where
  wlen : s.workers.length = n
  counts : ∀ u : String,
    s.queue.count u + s.workers.countP (isInflightFor u) + (s.done.map Prod.fst).count u =
      urls.count u
  finQueue : (∃ w ∈ s.workers, w = WStatus.finished) → s.queue = []

theorem schedInv_init (urls : List String) (n : Nat) : SchedInv urls n (initSched urls n) := by
  refine ⟨by simp [initSched], ?_, ?_⟩
  · intro u
    have hz : (List.replicate n WStatus.idle).countP (isInflightFor u) = 0 := by
      rw [List.countP_replicate]
      simp [isInflightFor]
    simp [initSched, hz]
  · rintro ⟨w, hw, rfl⟩
    exact absurd (List.eq_of_mem_replicate hw) (by simp)

theorem schedInv_step {urls : List String} {n : Nat} {s t : Sched}
    (hs : SchedInv urls n s) (hstep : SchedStep s t) : SchedInv urls n t := by
  cases hstep with
  | start i u rest hq hw =>
    refine ⟨by simpa [List.length_set] using hs.wlen, ?_, ?_⟩
    · intro u2
      have hcount := countP_set_eq (isInflightFor u2) s.workers i WStatus.idle
        (WStatus.inflight u) hw
      have hidle : isInflightFor u2 WStatus.idle = false := rfl
      have hinf : isInflightFor u2 (WStatus.inflight u) = (u == u2) := rfl
      rw [hidle, hinf] at hcount
      simp only [if_neg (by decide : ¬ (false = true))] at hcount
      have hc := hs.counts u2
      rw [hq, List.count_cons] at hc
      dsimp only
      omega
    · rintro ⟨w, hw2, rfl⟩
      rcases List.mem_or_eq_of_mem_set hw2 with h2 | h2
      · have := hs.finQueue ⟨_, h2, rfl⟩
        rw [hq] at this
        exact absurd this (by simp)
      · exact absurd h2 (by simp)
  | exit i hq hw =>
    refine ⟨by simpa [List.length_set] using hs.wlen, ?_, fun _ => hq⟩
    intro u2
    have hcount := countP_set_eq (isInflightFor u2) s.workers i WStatus.idle
      WStatus.finished hw
    have hidle : isInflightFor u2 WStatus.idle = false := rfl
    have hfin : isInflightFor u2 WStatus.finished = false := rfl
    rw [hidle, hfin] at hcount
    simp only [if_neg (by decide : ¬ (false = true))] at hcount
    have hc := hs.counts u2
    dsimp only
    omega
  | complete i u o hw =>
    refine ⟨by simpa [completeState, List.length_set] using hs.wlen, ?_, ?_⟩
    · intro u2
      have hcount := countP_set_eq (isInflightFor u2) s.workers i (WStatus.inflight u)
        WStatus.idle hw
      have hidle : isInflightFor u2 WStatus.idle = false := rfl
      have hinf : isInflightFor u2 (WStatus.inflight u) = (u == u2) := rfl
      rw [hidle, hinf] at hcount
      simp only [if_neg (by decide : ¬ (false = true))] at hcount
      have hc := hs.counts u2
      have hdone : ((s.done ++ [(u, o)]).map Prod.fst).count u2 =
          (s.done.map Prod.fst).count u2 + (if (u == u2) = true then 1 else 0) := by
        rw [List.map_append, List.count_append]
        simp [List.count_singleton]
      simp only [completeState]
      rw [hdone]
      omega
    · rintro ⟨w, hw2, rfl⟩
      simp only [completeState] at hw2
      rcases List.mem_or_eq_of_mem_set hw2 with h2 | h2
      · exact hs.finQueue ⟨_, h2, rfl⟩
      · exact absurd h2 (by simp)

theorem schedInv_reach {urls : List String} {n : Nat} {s : Sched}
    (h : Reach (initSched urls n) s) : SchedInv urls n s := by
  induction h with
  | refl => exact schedInv_init urls n
  | step _ hstep ih => exact schedInv_step ih hstep

theorem exists_nonfinished {l : List WStatus} (h : ¬ ∀ w ∈ l, w = WStatus.finished) :
    ∃ i w, l.get? i = some w ∧ w ≠ WStatus.finished := by
  induction l with
  | nil => exact absurd (by simp) h
  | cons a t ih =>
    by_cases ha : a = WStatus.finished
    · subst ha
      have h2 : ¬ ∀ w ∈ t, w = WStatus.finished := by
        intro hall
        refine h fun w hw => ?_
        rcases List.mem_cons.mp hw with rfl | hw2
        · rfl
        · exact hall w hw2
      obtain ⟨i, w, h3, h4⟩ := ih h2
      exact ⟨i + 1, w, by simpa using h3, h4⟩
    · exact ⟨0, a, rfl, ha⟩

theorem stuck_state_complete {urls : List String} {n : Nat} {s : Sched} (hn : 1 ≤ n)
    (hinv : SchedInv urls n s) (hstuck : ∀ t, ¬ SchedStep s t) :
    s.queue = [] ∧ (∀ w ∈ s.workers, w = WStatus.finished) ∧
      (s.done.map Prod.fst).Perm urls := by
  have hall : ∀ w ∈ s.workers, w = WStatus.finished := by
    by_contra hno
    obtain ⟨i, w, hgi, hwne⟩ := exists_nonfinished hno
    cases w with
    | idle =>
      cases hq : s.queue with
      | nil => exact hstuck _ (SchedStep.exit s i hq hgi)
      | cons u rest => exact hstuck _ (SchedStep.start s i u rest hq hgi)
    | inflight u => exact hstuck _ (SchedStep.complete s i u Outcome.loaded hgi)
    | finished => exact hwne rfl
  have hne : s.workers ≠ [] := by
    intro h0
    have hl := hinv.wlen
    rw [h0] at hl
    simp at hl
    omega
  obtain ⟨w0, hw0⟩ := List.exists_mem_of_ne_nil s.workers hne
  have hq : s.queue = [] := hinv.finQueue ⟨w0, hw0, hall w0 hw0⟩
  refine ⟨hq, hall, ?_⟩
  rw [List.perm_iff_count]
  intro u
  have hcnt := hinv.counts u
  have hz : s.workers.countP (isInflightFor u) = 0 := by
    rw [List.countP_eq_zero]
    intro a ha
    rw [hall a ha]
    simp [isInflightFor]
  rw [hq, hz] at hcnt
  simpa using hcnt

/-- Worker-state weight for the termination measure. -/
def wWeight : WStatus → Nat
  | .idle => 2
  | .inflight _ => 3
  | .finished => 0

/-- Termination measure of the scheduler: every step strictly decreases
it, so every run of the generated script reaches a stuck (fully done)
state. -/
def schedMeasure (s : Sched) : Nat :=
  3 * s.queue.length + (s.workers.map wWeight).sum

theorem schedStep_measure {s t : Sched} (h : SchedStep s t) :
    schedMeasure t < schedMeasure s := by
  cases h with
  | start i u rest hq hw =>
    have hsum := sum_map_set_eq wWeight s.workers i WStatus.idle (WStatus.inflight u) hw
    have hlen : s.queue.length = rest.length + 1 := by rw [hq]; rfl
    simp only [wWeight] at hsum
    simp only [schedMeasure]
    omega
  | exit i hq hw =>
    have hsum := sum_map_set_eq wWeight s.workers i WStatus.idle WStatus.finished hw
    simp only [wWeight] at hsum
    simp only [schedMeasure]
    omega
  | complete i u o hw =>
    have hsum := sum_map_set_eq wWeight s.workers i (WStatus.inflight u) WStatus.idle hw
    simp only [wWeight] at hsum
    simp only [schedMeasure, completeState]
    omega

/-- The behavioral specification of the generated bounded-concurrency
preload scheduler for a given URL list and batch size: (1) at most
`batchSize` items are in flight in any reachable state; (2) any reachable
state from which no step is possible has an empty queue, all workers
exited, and a done log holding exactly the input URLs (every queued item
reached a done state, none was lost to a failure); (3) every step
strictly decreases a natural measure, so every run terminates; (4) the
post-state of completing an item is independent of its outcome except
for the outcome recorded in the log (a failure or timeout never aborts
siblings or the scheduler), and every outcome — load, error, timeout —
has a handled transition (no unhandled rejection). -/
def SchedulerSpec (urls : List String) (n : Nat) : Prop :=
  (∀ s : Sched, Reach (initSched urls n) s → inflightCount s ≤ n) ∧
  (∀ s : Sched, Reach (initSched urls n) s → (∀ t, ¬ SchedStep s t) →
    s.queue = [] ∧ (∀ w ∈ s.workers, w = WStatus.finished) ∧
      (s.done.map Prod.fst).Perm urls) ∧
  (∀ s t : Sched, SchedStep s t → schedMeasure t < schedMeasure s) ∧
  (∀ (s : Sched) (i : Nat) (u : String) (o o2 : Outcome),
    (completeState s i u o).queue = (completeState s i u o2).queue ∧
    (completeState s i u o).workers = (completeState s i u o2).workers ∧
    (completeState s i u o).done.map Prod.fst = (completeState s i u o2).done.map Prod.fst ∧
    (s.workers.get? i = some (WStatus.inflight u) → SchedStep s (completeState s i u o)))

theorem coherent_nil (env : GlobEnv) : Coherent env [] := by
  intro p w v h
  simp [lookupCache] at h

/-- Conclusion of the exact-matching claim: with the expansion set of
`pattern`, (1) an artifact with truthy `originalFileName = some o`
matches iff `o` is a member of the expansion set; (2) the collected list
consists of exactly the `fileName`s of the matching artifacts; (3) a
processed (`publicDir = false`) bare-string target in `generateBundle`
appends exactly those final served names to the accumulator. -/
def ExactMatchSpec (env : GlobEnv) (c : Cache) (pattern : String) (bundles : List Bundle)
    (assets : List String) (b : Bundle) (o : String) : Prop :=
  (matchBundleWithFiles b (some (env.fs pattern none)) = true ↔ o ∈ env.fs pattern none) ∧
  (collectMatchedFiles env pattern bundles c).1 =
    (bundles.filter fun b2 => matchBundleWithFiles b2 (some (env.fs pattern none))).map
      Bundle.fileName ∧
  (generateBundle env (.str pattern) false bundles assets c).1 =
    assets ++ (bundles.filter fun b2 =>
      matchBundleWithFiles b2 (some (env.fs pattern none))).map Bundle.fileName

/-- C1: in production, for a processed target, an artifact exposing a
truthy pre-transform source path matches iff that path is a member of the
expansion set of the pattern (exact set membership, not substring), and
a match contributes the final served name of the artifact, not the source
path. -/
theorem prod_exact_match (env : GlobEnv) (c : Cache) (hc : Coherent env c)
    (pattern : String) (bundles : List Bundle) (assets : List String)
    (b : Bundle) (o : String) (ho : b.originalFileName = some o) (hne : o ≠ "") :
    ExactMatchSpec env c pattern bundles assets b o := by
  have hglob := getCachedGlobSync_fst_coherent hc pattern none
  refine ⟨?_, ?_, ?_⟩
  · simp [matchBundleWithFiles, ho, if_pos hne]
  · simp [collectMatchedFiles, hglob]
  · have hpub : ¬ ((false : Bool) = true) := by decide
    simp [generateBundle, if_neg hpub, collectMatchedFiles, hglob]

def envC1 : GlobEnv := ⟨fun _ _ => ["src/a.png"]⟩

theorem prod_exact_match_witness :
    Coherent envC1 [] ∧
    (Bundle.mk "assets/a.hash.png" "a.png" (some "src/a.png")).originalFileName =
      some "src/a.png" ∧
    "src/a.png" ≠ "" ∧
    ExactMatchSpec envC1 [] "src/a.png" [⟨"assets/a.hash.png", "a.png", some "src/a.png"⟩]
      [] ⟨"assets/a.hash.png", "a.png", some "src/a.png"⟩ "src/a.png" :=
  ⟨coherent_nil envC1, rfl, by decide,
    prod_exact_match envC1 [] (coherent_nil envC1) "src/a.png"
      [⟨"assets/a.hash.png", "a.png", some "src/a.png"⟩] []
      ⟨"assets/a.hash.png", "a.png", some "src/a.png"⟩ "src/a.png" rfl (by decide)⟩

/-- The fallback criterion in the own words of the specification: some
expanded file name is a substring of the symbolic name of the artifact. -/
def specFallbackCriterion (b : Bundle) (files : List String) : Bool :=
  files.any fun f => jsIncludes b.name f

/-- C2 counterexample: for the artifact `{name: "a.png"}` with no source
path and expansion set `["src/assets/a.png"]`, the source matches (it
tests `file.includes(bundle.name)`, i.e. the symbolic name as a substring
of the expanded path), while the criterion of the claim — the expanded file
name as a substring of the symbolic name — does not hold: the substring
test runs in the opposite direction from the wording of the claim. -/
theorem fallback_direction_counterexample :
    matchBundleWithFiles ⟨"assets/a.1a2b.png", "a.png", none⟩ (some ["src/assets/a.png"]) =
      true ∧
    specFallbackCriterion ⟨"assets/a.1a2b.png", "a.png", none⟩ ["src/assets/a.png"] = false := by
  decide

/-- Conclusion of the amended fallback claim: an artifact with no truthy
source path matches iff its symbolic `name` occurs as a substring of one
of the expanded file paths of the pattern, and two such artifacts with the
same symbolic name are indistinguishable to the matcher — the documented
accepted over-match of same-named assets from unrelated directories. -/
def FallbackMatchSpec (b : Bundle) (files : List String) : Prop :=
  (matchBundleWithFiles b (some files) = files.any fun f => jsIncludes f b.name) ∧
  (∀ b2 : Bundle, b2.originalFileName = none ∨ b2.originalFileName = some "" →
    b2.name = b.name → matchBundleWithFiles b2 (some files) = matchBundleWithFiles b (some files))

/-- C2 (amended): fallback matching tests whether the symbolic
name is a substring of an expanded file path (not the reverse), and the
resulting over-match of same-named artifacts is inherent: the matcher
cannot distinguish artifacts sharing a symbolic name. -/
theorem fallback_substring_match (b : Bundle) (files : List String)
    (h : b.originalFileName = none ∨ b.originalFileName = some "") :
    FallbackMatchSpec b files := by
  have key : ∀ b2 : Bundle, b2.originalFileName = none ∨ b2.originalFileName = some "" →
      matchBundleWithFiles b2 (some files) = files.any fun f => jsIncludes f b2.name := by
    intro b2 h2
    rcases h2 with h2 | h2 <;> simp [matchBundleWithFiles, h2]
  refine ⟨key b h, fun b2 h2 hn => ?_⟩
  rw [key b2 h2, key b h, hn]

theorem fallback_substring_match_witness :
    ((Bundle.mk "other/a.9xZ.png" "a.png" none).originalFileName = none ∨
      (Bundle.mk "other/a.9xZ.png" "a.png" none).originalFileName = some "") ∧
    FallbackMatchSpec ⟨"other/a.9xZ.png", "a.png", none⟩ ["src/assets/a.png"] :=
  ⟨Or.inl rfl,
    fallback_substring_match ⟨"other/a.9xZ.png", "a.png", none⟩ ["src/assets/a.png"] (Or.inl rfl)⟩

/-- Conclusion of the deduplication/determinism claim for one
`transformIndexHtml` run: the emitted list has no duplicates, equals the
first-occurrence deduplication of the raw collected list, is an
order-preserving sublist of it with the same members, `dedupFirst` keeps
exactly the first occurrence of every element (its recursion drops later
copies of the head), and rerunning the hook on the cache the first run
produced yields the identical list. -/
def ResolveSpec (env : GlobEnv) (dirs : DirsVal) (pub : Bool) (pd : String) (server : Bool)
    (assets : List String) (c : Cache) : Prop :=
  (transformImages env dirs pub pd server assets c).1.Nodup ∧
  (transformImages env dirs pub pd server assets c).1 =
    dedupFirst (pureRawImages env dirs pub pd server assets) ∧
  ((transformImages env dirs pub pd server assets c).1).Sublist
    (pureRawImages env dirs pub pd server assets) ∧
  (∀ x, x ∈ (transformImages env dirs pub pd server assets c).1 ↔
    x ∈ pureRawImages env dirs pub pd server assets) ∧
  (∀ (x : String) (xs : List String),
    dedupFirst (x :: xs) = x :: dedupFirst (xs.filter fun y => y != x)) ∧
  (transformImages env dirs pub pd server assets
      (transformImages env dirs pub pd server assets c).2).1 =
    (transformImages env dirs pub pd server assets c).1

/-- C3: the resolved asset list is duplicate-free, preserves the
first-occurrence order of the collected URLs, and resolving twice with
the same inputs (unchanged filesystem, hence a coherent cache) yields
identical ordered lists. -/
theorem resolve_dedup_deterministic (env : GlobEnv) (dirs : DirsVal) (pub : Bool)
    (pd : String) (server : Bool) (assets : List String) (c : Cache)
    (hc : Coherent env c) : ResolveSpec env dirs pub pd server assets c := by
  have h1 := transformImages_fst hc dirs pub pd server assets
  have h2 := transformImages_snd hc dirs pub pd server assets
  refine ⟨?_, h1, ?_, ?_, ?_, ?_⟩
  · rw [h1]; exact nodup_dedupFirst _
  · rw [h1]; exact dedupFirst_sublist _
  · intro x; rw [h1]; exact mem_dedupFirst x _
  · exact fun x xs => dedupFirst_cons x xs
  · rw [transformImages_fst h2 dirs pub pd server assets, h1]

def envC3 : GlobEnv := ⟨fun _ _ => ["a.png", "b.png", "a.png"]⟩

theorem resolve_dedup_deterministic_witness :
    Coherent envC3 [] ∧ ResolveSpec envC3 (.str "src/a/p.png") false "" true [] [] :=
  ⟨coherent_nil envC3,
    resolve_dedup_deterministic envC3 (.str "src/a/p.png") false "" true [] []
      (coherent_nil envC3)⟩

/-- Conclusion of the configuration-rejection claim: construction fails
with exactly the aggregated error list, and each violated field
contributes its own message to that list (so all violations are
enumerated, not only the first).  Construction (`VitePluginPreloadImages`)
takes no filesystem capability, so the rejection happens before any
pattern expansion or resolution work is possible. -/
def ValidationSpec (o : JsOptions) : Prop :=
  (∃ es, VitePluginPreloadImages o = .error es ∧ es = validateOptions o) ∧
  (∀ n : Int, o.batchSize = some (.jnum n) → n < 1 →
    "BatchSize must be number and greater than 0!" ∈ validateOptions o) ∧
  (∀ n : Int, o.timeout = some (.jnum n) → n < 1000 →
    "Timeout must be number and greater than 1000!" ∈ validateOptions o) ∧
  (o.dirs = none → "Param dirs is required!" ∈ validateOptions o) ∧
  (o.dirs = some .other → "Param dirs must be string or array!" ∈ validateOptions o)

/-- C4: a present `batchSize < 1`, a present `timeout < 1000`, a missing
`dirs`, or a wrong-shaped `dirs` each makes plugin construction throw one
aggregated configuration error enumerating every violated field, before
any expansion work. -/
theorem invalid_options_rejected (o : JsOptions)
    (hviol : (∃ n : Int, o.batchSize = some (.jnum n) ∧ n < 1) ∨
      (∃ n : Int, o.timeout = some (.jnum n) ∧ n < 1000) ∨
      o.dirs = none ∨ o.dirs = some .other) :
    ValidationSpec o := by
  have hbatch : ∀ n : Int, o.batchSize = some (.jnum n) → n < 1 →
      "BatchSize must be number and greater than 0!" ∈ validateOptions o := by
    intro n hb hn
    simp [validateOptions, hb, hn, List.mem_append]
  have htime : ∀ n : Int, o.timeout = some (.jnum n) → n < 1000 →
      "Timeout must be number and greater than 1000!" ∈ validateOptions o := by
    intro n ht hn
    simp [validateOptions, ht, hn, List.mem_append]
  have hdirs : o.dirs = none → "Param dirs is required!" ∈ validateOptions o := by
    intro hd
    simp [validateOptions, hd, List.mem_append]
  have hshape : o.dirs = some .other → "Param dirs must be string or array!" ∈ validateOptions o := by
    intro hd
    simp [validateOptions, hd, List.mem_append]
  have hne : validateOptions o ≠ [] := by
    rcases hviol with ⟨n, hb, hn⟩ | ⟨n, ht, hn⟩ | hd | hd
    · exact List.ne_nil_of_mem (hbatch n hb hn)
    · exact List.ne_nil_of_mem (htime n ht hn)
    · exact List.ne_nil_of_mem (hdirs hd)
    · exact List.ne_nil_of_mem (hshape hd)
  refine ⟨?_, hbatch, htime, hdirs, hshape⟩
  cases hv : validateOptions o with
  | nil => exact absurd hv hne
  | cons e es => exact ⟨e :: es, by simp [VitePluginPreloadImages, hv], rfl⟩

theorem invalid_options_rejected_witness :
    ((∃ n : Int, (JsOptions.mk none (some (.jnum 0)) (some (.jnum 500))).batchSize =
        some (.jnum n) ∧ n < 1) ∨
      (∃ n : Int, (JsOptions.mk none (some (.jnum 0)) (some (.jnum 500))).timeout =
        some (.jnum n) ∧ n < 1000) ∨
      (JsOptions.mk none (some (.jnum 0)) (some (.jnum 500))).dirs = none ∨
      (JsOptions.mk none (some (.jnum 0)) (some (.jnum 500))).dirs = some .other) ∧
    ValidationSpec ⟨none, some (.jnum 0), some (.jnum 500)⟩ :=
  ⟨Or.inl ⟨0, rfl, by decide⟩,
    invalid_options_rejected ⟨none, some (.jnum 0), some (.jnum 500)⟩
      (Or.inl ⟨0, rfl, by decide⟩)⟩

def envC5 : GlobEnv := ⟨fun _ w => if w = some "" then ["preload/a.png"] else []⟩

/-- C5: evaluation of the code path the claim covers.  With the plugin
flag `publicDir = true` and no public root (`config.publicDir` resolved
to the falsy `""`), a bare-string `dirs` in dev mode is NOT skipped: the
code expands the pattern with `cwd` set to the falsy public-root value
(which `fast-glob` resolves to the process working directory, i.e. the
project root) and contributes the expansion — here `["preload/a.png"]`
instead of the zero assets the claim requires.  The same configuration
in production mode, and an array target with its own `publicDir: true`
in dev mode, are correctly guarded and contribute nothing, showing the
bare-string dev path is the one branch missing the
`publicDir && !config.publicDir` guard. -/
theorem dev_barestring_missing_guard :
    (transformImages envC5 (.str "preload/*.png") true "" true [] []).1 = ["preload/a.png"] ∧
    (transformImages envC5 (.str "preload/*.png") true "" false [] []).1 = [] ∧
    (transformImages envC5 (.arr [.record "preload/*.png" (.jbool true)]) true "" true [] []).1 =
      [] ∧
    (transformImages envC5 (.arr [.str "preload/*.png"]) true "" true [] []).1 = [] := by
  decide

/-- Conclusion of the dev-mode source-root claim: a bare-string target
with the public flag unset expands with no `cwd` option (the project
source root), as does an array record with `publicDir: false` even when
the global flag is set and whatever `config.publicDir` is; the resolved
list is the first-occurrence deduplication of the expansion, hence the
expansion itself whenever the expansion has no duplicates. -/
def DevSourceRootSpec (env : GlobEnv) (c : Cache) (s d cfg : String)
    (assets : List String) : Prop :=
  (transformImages env (.str s) false cfg true assets c).1 = dedupFirst (env.fs s none) ∧
  (transformImages env (.arr [.record d (.jbool false)]) true cfg true assets c).1 =
    dedupFirst (env.fs d none) ∧
  ((env.fs s none).Nodup → (transformImages env (.str s) false cfg true assets c).1 =
    env.fs s none)

/-- C6: in dev mode a target with `fromPublicRoot` false or absent is
expanded relative to the project source root (no `cwd` option), not the
public root, and its resolved list equals the expansion in first-seen
order. -/
theorem dev_source_root_expansion (env : GlobEnv) (c : Cache) (hc : Coherent env c)
    (s d cfg : String) (assets : List String) : DevSourceRootSpec env c s d cfg assets := by
  have h1 := transformImages_fst hc (DirsVal.str s) false cfg true assets
  have h2 := transformImages_fst hc (DirsVal.arr [DirsItem.record d (JsVal.jbool false)])
    true cfg true assets
  refine ⟨?_, ?_, ?_⟩
  · rw [h1]; simp [pureRawImages]
  · rw [h2]; simp [pureRawImages, devItemPure, JsVal.truthy]
  · intro hnd
    rw [h1]
    have hpure : pureRawImages env (DirsVal.str s) false cfg true assets = env.fs s none := by
      simp [pureRawImages]
    rw [hpure]
    exact dedupFirst_eq_self hnd

def envC6 : GlobEnv := ⟨fun p w => if p = "src/assets/p.png" ∧ w = none then ["a.png", "b.png"] else []⟩

theorem dev_source_root_expansion_witness :
    Coherent envC6 [] ∧ DevSourceRootSpec envC6 [] "src/assets/p.png" "src/assets/p.png" "" [] :=
  ⟨coherent_nil envC6,
    dev_source_root_expansion envC6 [] (coherent_nil envC6) "src/assets/p.png"
      "src/assets/p.png" "" []⟩

/-- C7: the generated scheduler satisfies `SchedulerSpec`: bounded
concurrency (never more than `batchSize` in flight), full completion
(every stuck reachable state has drained the queue and its done log is a
permutation of the input URLs), termination (a strictly decreasing
measure), and outcome-independence of completion (an error or timeout
leaves exactly the same queue and worker pool as a success, so failures
are local; every outcome has a handled transition, so no rejection
escapes). -/
theorem preload_scheduler_ok (urls : List String) (n : Nat) (hn : 1 ≤ n) :
    SchedulerSpec urls n := by
  refine ⟨?_, ?_, fun s t h => schedStep_measure h, ?_⟩
  · intro s hr
    have hinv := schedInv_reach hr
    have h1 : inflightCount s ≤ s.workers.length := List.countP_le_length isInflightW
    rw [hinv.wlen] at h1
    exact h1
  · intro s hr hstuck
    exact stuck_state_complete hn (schedInv_reach hr) hstuck
  · intro s i u o o2
    exact ⟨rfl, rfl, by simp [completeState], fun hw => SchedStep.complete s i u o hw⟩

theorem preload_scheduler_ok_witness :
    1 ≤ 2 ∧ SchedulerSpec ["a.png", "b.png", "c.png", "d.png", "e.png"] 2 :=
  ⟨by decide, preload_scheduler_ok ["a.png", "b.png", "c.png", "d.png", "e.png"] 2 (by decide)⟩

def envPass1 : GlobEnv := ⟨fun _ _ => ["a.png"]⟩

def envPass2 : GlobEnv := ⟨fun _ _ => ["a.png", "b.png"]⟩

/-- C8 counterexample: run the dev-mode transform once against a
filesystem where the pattern expands to `["a.png"]`; keep the
module-level cache (as the process does); run the transform again after
the filesystem has changed so the same pattern now expands to
`["a.png", "b.png"]`.  The second resolution still returns the stale
`["a.png"]` — the expansion was NOT recomputed on the new invocation –
whereas a fresh resolution pass (empty cache) returns
`["a.png", "b.png"]`.  Expansion results are therefore cached across
resolution passes for the whole process lifetime, contradicting the
claim that they are memoized only within one pass. -/
theorem glob_cache_cross_pass_counterexample :
    (transformImages envPass2 (.str "p") false "" true []
        ((transformImages envPass1 (.str "p") false "" true [] []).2)).1 = ["a.png"] ∧
    (transformImages envPass2 (.str "p") false "" true [] []).1 = ["a.png", "b.png"] ∧
    (["a.png"] : List String) ≠ ["a.png", "b.png"] := by
  decide

/-- Conclusion of the amended cache claim: a key already present in the
module-level cache is answered from the cache — the filesystem function
is not consulted and the cache is unchanged — and no `transformIndexHtml`
invocation ever removes an entry, so cached expansions persist across
all later resolution passes of the process. -/
def CachePersistSpec (env : GlobEnv) (c : Cache) (p : String) (w : Option String)
    (v : List String) : Prop :=
  getCachedGlobSync env c p w = (v, c) ∧
  (∀ (dirs : DirsVal) (pub : Bool) (cfg : String) (server : Bool) (assets : List String)
    (k : String × Option String) (u : List String), lookupCache c k = some u →
      lookupCache (transformImages env dirs pub cfg server assets c).2 k = some u)

/-- C8 (amended): pattern-expansion results are memoized in a
process-lifetime module-level cache keyed by pattern + options; hits
bypass the filesystem and entries are never invalidated, so expansions
are reused across resolution passes, not recomputed per invocation. -/
theorem glob_cache_process_lifetime (env : GlobEnv) (c : Cache) (p : String)
    (w : Option String) (v : List String) (h : lookupCache c (p, w) = some v) :
    CachePersistSpec env c p w v := by
  refine ⟨by simp [getCachedGlobSync, h], ?_⟩
  intro dirs pub cfg server assets k u hk
  exact transformImages_mono hk dirs pub cfg server assets

theorem glob_cache_process_lifetime_witness :
    lookupCache [(("p", none), ["a.png"])] ("p", none) = some ["a.png"] ∧
    CachePersistSpec envPass2 [(("p", none), ["a.png"])] "p" none ["a.png"] :=
  ⟨by decide,
    glob_cache_process_lifetime envPass2 [(("p", none), ["a.png"])] "p" none ["a.png"]
      (by decide)⟩

/-- C9 counterexample: a structured record whose `dir` is the empty
string (trivially empty after trimming) and whose `publicDir` is the
non-boolean string `"yes"` passes validation and yields a constructed
plugin, and a whitespace-only bare-string `dirs` (empty after trimming)
also passes — the checks the claim describes are not performed. -/
theorem validation_gap_counterexample :
    validateOptions ⟨some (.arr [.record "" (.jstr "yes")]), none, none⟩ = [] ∧
    VitePluginPreloadImages ⟨some (.arr [.record "" (.jstr "yes")]), none, none⟩ =
      .ok ⟨.arr [.record "" (.jstr "yes")], 2, 5000⟩ ∧
    validateOptions ⟨some (.str "   "), none, none⟩ = [] ∧
    jsTrim "" = "" ∧
    jsTrim "   " = "" ∧
    JsVal.jstr "yes" ≠ .jbool true ∧
    JsVal.jstr "yes" ≠ .jbool false :=
  ⟨by decide, rfl, by decide, by decide, by decide, by decide, by decide⟩

theorem get?_mem_enumFrom {α : Type} :
    ∀ (l : List α) (n i : Nat) (x : α), l.get? i = some x → (n + i, x) ∈ l.enumFrom n := by
  intro l
  induction l with
  | nil => intro n i x h; simp at h
  | cons a t ih =>
    intro n i x h
    cases i with
    | zero =>
      rw [List.get?_cons_zero] at h
      injection h with h
      subst h
      simp [List.enumFrom_cons]
    | succ j =>
      rw [List.get?_cons_succ] at h
      have hmem := ih (n + 1) j x h
      have harith : n + (j + 1) = n + 1 + j := by omega
      rw [List.enumFrom_cons, harith]
      exact List.mem_cons_of_mem _ hmem

theorem get?_mem_enum {α : Type} (l : List α) (i : Nat) (x : α) (h : l.get? i = some x) :
    (i, x) ∈ l.enum := by
  have := get?_mem_enumFrom l 0 i x h
  simpa [List.enum] using this

/-- Conclusion of the amended validation claim, for entry `i` of a
`dirs` array: a string entry that is empty after trimming is rejected
with its indexed message, an object entry missing the `dir`/`publicDir`
keys is rejected with its indexed message, but a record entry produces no
error whatever its `dir` content or `publicDir` type. -/
def ValidationEnforcedSpec (o : JsOptions) (items : List DirsItem) (i : Nat) : Prop :=
  (∀ s : String, items.get? i = some (.str s) → jsTrim s = "" →
    ("Param dirs[" ++ toString i ++ "] cannot be empty string!") ∈ validateOptions o) ∧
  (items.get? i = some .malformed →
    ("Param dirs[" ++ toString i ++ "] must be have dir and publicDir property!") ∈
      validateOptions o) ∧
  (∀ (d : String) (pd : JsVal), items.get? i = some (.record d pd) →
    itemError (i, .record d pd) = none)

/-- C9 (amended): validation enforces only part of the data-model
invariant: inside a `dirs` array it rejects empty-after-trim string
entries and objects missing the `dir` or `publicDir` key, but it never
inspects the `dir` content or `publicDir` type of a structured record, and a
whitespace-only top-level bare string also passes (only a fully falsy
`dirs` is reported). -/
theorem validation_enforced (o : JsOptions) (items : List DirsItem) (i : Nat)
    (hd : o.dirs = some (.arr items)) : ValidationEnforcedSpec o items i := by
  have hmemdirs : ∀ msg : String, msg ∈ items.enum.filterMap itemError →
      msg ∈ validateOptions o := by
    intro msg hmsg
    simp only [validateOptions, hd]
    exact List.mem_append.mpr (Or.inl (List.mem_append.mpr (Or.inl hmsg)))
  refine ⟨?_, ?_, fun d pd _ => rfl⟩
  · intro s hs htrim
    refine hmemdirs _ (List.mem_filterMap.mpr ⟨(i, DirsItem.str s), get?_mem_enum items i _ hs, ?_⟩)
    simp [itemError, htrim]
  · intro hs
    exact hmemdirs _ (List.mem_filterMap.mpr ⟨(i, DirsItem.malformed),
      get?_mem_enum items i _ hs, rfl⟩)

theorem validation_enforced_witness :
    (JsOptions.mk (some (.arr [.str " ", .malformed, .record "" (.jstr "yes")])) none
        none).dirs = some (.arr [.str " ", .malformed, .record "" (.jstr "yes")]) ∧
    ValidationEnforcedSpec ⟨some (.arr [.str " ", .malformed, .record "" (.jstr "yes")]),
      none, none⟩ [.str " ", .malformed, .record "" (.jstr "yes")] 0 :=
  ⟨rfl,
    validation_enforced ⟨some (.arr [.str " ", .malformed, .record "" (.jstr "yes")]),
      none, none⟩ [.str " ", .malformed, .record "" (.jstr "yes")] 0 rfl⟩

/-- Conclusion of the append-only accumulator claim: a `generateBundle`
invocation only ever appends to the per-instance `assets` list (the old
list is a prefix of the new one, so earlier collections are never cleared
or removed), and every accumulated asset appears in the production
(`server = false`) HTML transform output after deduplication. -/
def AppendOnlySpec (env : GlobEnv) (dirs : DirsVal) (pub : Bool) (cfg : String)
    (bundles : List Bundle) (assets : List String) (c c2 : Cache) : Prop :=
  (assets <+: (generateBundle env dirs pub bundles assets c).1) ∧
  (∀ x, x ∈ assets → x ∈ (transformImages env dirs pub cfg false assets c2).1)

theorem gbItemStepExtends (env : GlobEnv) (pub : Bool) (bundles : List Bundle)
    (acc : List String × Cache) (it : DirsItem) :
    acc.1 <+: (gbItemStep env pub bundles acc it).1 := by
  cases it with
  | str s =>
    by_cases hp : (pub : Prop)
    · simp [gbItemStep, if_pos hp]
    · simp only [gbItemStep, if_neg hp]
      exact List.prefix_append _ _
  | record d pd =>
    by_cases hp : (pd.truthy : Prop)
    · simp [gbItemStep, if_pos hp]
    · simp only [gbItemStep, if_neg hp]
      exact List.prefix_append _ _
  | malformed => simp [gbItemStep]

theorem gbFoldExtends (env : GlobEnv) (pub : Bool) (bundles : List Bundle) :
    ∀ (items : List DirsItem) (acc : List String × Cache),
      acc.1 <+: (items.foldl (gbItemStep env pub bundles) acc).1 := by
  intro items
  induction items with
  | nil => intro acc; exact List.prefix_rfl
  | cons it t ih =>
    intro acc
    rw [List.foldl_cons]
    exact (gbItemStepExtends env pub bundles acc it).trans (ih _)

/-- C10: the per-instance production asset accumulator is append-only —
`generateBundle` never clears or removes entries — and the production
HTML transform output after deduplication contains every accumulated asset. -/
theorem assets_append_only (env : GlobEnv) (dirs : DirsVal) (pub : Bool) (cfg : String)
    (bundles : List Bundle) (assets : List String) (c c2 : Cache) :
    AppendOnlySpec env dirs pub cfg bundles assets c c2 := by
  constructor
  · cases dirs with
    | str s =>
      by_cases hp : (pub : Prop)
      · simp [generateBundle, if_pos hp]
      · simp only [generateBundle, if_neg hp]
        exact List.prefix_append _ _
    | arr items => exact gbFoldExtends env pub bundles items (assets, c)
    | other => exact List.prefix_rfl
  · intro x hx
    have hsplit : ∃ q, (collectRawImages env dirs pub cfg false assets c2).1 = q ++ assets :=
      ⟨_, rfl⟩
    obtain ⟨q, hq⟩ := hsplit
    have himg : (transformImages env dirs pub cfg false assets c2).1 =
        dedupFirst ((collectRawImages env dirs pub cfg false assets c2).1) := rfl
    rw [himg, mem_dedupFirst, hq]
    exact List.mem_append_right q hx
